import Mathlib

/-!
# Verification of the barcodeozon orders/labels reconciliation core

Shallow embedding of `src/App.tsx`.  Strings are embedded as `List Char`
(one element per Unicode code point; all text involved is BMP text, where
JavaScript string indices agree with code-point indices).  Page geometry
(pdf-lib media boxes and draw calls) is embedded over `ℚ`.

The JavaScript regular expressions of the source are embedded by their
*deterministic residue*: each pattern used by the program is simple enough
that the JS backtracking search collapses to a unique deterministic scan,
and the embedding implements exactly that scan.  Each definition carries a
comment recording the source lines it is translated from and, where a
regex is involved, why the determinisation is faithful.
-/

/-- JS `\d`: the ASCII digits (code points 48-57). -/
def isDigitChar (c : Char) : Bool := decide (48 ≤ c.toNat) && decide (c.toNat ≤ 57)

/-- JS `\s` (and the character set removed by `String.prototype.trim`):
WhiteSpace (TAB, VT, FF, SP, NBSP, ZWNBSP and the Unicode `Zs` category)
together with the line terminators LF, CR, LS, PS. -/
def isSpaceChar (c : Char) : Bool :=
  decide (c.toNat = 32) || decide (c.toNat = 9) || decide (c.toNat = 10) ||
  decide (c.toNat = 11) || decide (c.toNat = 12) || decide (c.toNat = 13) ||
  decide (c.toNat = 0xa0) || decide (c.toNat = 0x1680) ||
  (decide (0x2000 ≤ c.toNat) && decide (c.toNat ≤ 0x200a)) ||
  decide (c.toNat = 0x2028) || decide (c.toNat = 0x2029) ||
  decide (c.toNat = 0x202f) || decide (c.toNat = 0x205f) ||
  decide (c.toNat = 0x3000) || decide (c.toNat = 0xfeff)

/-- The JS line terminators, which `.` (used in the primary grammar's lazy
group `(.*?)`) does not match: LF, CR, LS, PS. -/
def isLineTerm (c : Char) : Bool :=
  decide (c.toNat = 10) || decide (c.toNat = 13) ||
  decide (c.toNat = 0x2028) || decide (c.toNat = 0x2029)

/-- The character class `[A-Za-z0-9]` of the fallback article regex
(`App.tsx` line 115). -/
def isAlnum (c : Char) : Bool :=
  (decide (65 ≤ c.toNat) && decide (c.toNat ≤ 90)) ||
  (decide (97 ≤ c.toNat) && decide (c.toNat ≤ 122)) || isDigitChar c

/-- Length of the maximal leading run of characters satisfying `p`.
This is what a greedy `X+`/`X*` consumes in all the source's regexes:
in every occurrence the character after the run cannot restart the
following regex element, so JS backtracking never shortens the run. -/
def runLen (p : Char → Bool) : List Char → Nat
  | [] => 0
  | c :: cs => if p c then runLen p cs + 1 else 0

/-- JS `String.prototype.trim`. -/
def trimChars (l : List Char) : List Char :=
  ((l.dropWhile isSpaceChar).reverse.dropWhile isSpaceChar).reverse

/-- JS `productName.replace(/^\s*\d+\s*/, '')` (`App.tsx` line 125): if the
string starts with optional whitespace followed by at least one digit, one
such leading `whitespace digits whitespace` run is removed; otherwise the
string is unchanged.  (`^\s*` greedy then `\d+`: shortening the whitespace
run puts a whitespace character where `\d` must match, so the anchored
pattern matches iff a digit follows the maximal leading whitespace run.) -/
def stripLeadingNum (l : List Char) : List Char :=
  let l1 := l.drop (runLen isSpaceChar l)
  let d := runLen isDigitChar l1
  if d = 0 then l
  else
    let l2 := l1.drop d
    l2.drop (runLen isSpaceChar l2)

/-- The suffix of `l` after its last line terminator (all of `l` when it has
none).  Used to embed the lazy dot group `(.*?)`: the group's characters
must all be terminator-free, so the leftmost match starting before position
`j` captures exactly the terminator-free suffix of the text before `j`. -/
def lastSegment (l : List Char) : List Char :=
  (l.reverse.takeWhile (fun c => !isLineTerm c)).reverse

/-! ## Shipping-number pattern

`App.tsx` lines 85 and 161: `/(\d{8,12}-\d{4}-\d{1,2})/`.

Determinisation of the JS backtracking search at a fixed start position:

* `\d{8,12}` greedy: a candidate length `n` must have `n` digits followed by
  `-`.  All positions strictly inside the maximal digit run hold digits, so
  the only candidate is the full run length `r` itself, and only when
  `8 ≤ r ≤ 12`.
* `\d{4}` is a fixed-width element: the four characters after the first `-`
  must be digits and the fifth must be the second `-`; if the digit run
  there is longer than 4 the fifth character is a digit, never `-`, and the
  attempt fails with no backtracking opportunity.
* `\d{1,2}` greedy at the end of the pattern: it takes 2 digits when 2 are
  available, else 1, else fails.
-/

/-- JS match attempt of the shipping-number pattern at the head of `l`:
`some m` when the pattern matches a prefix of length `m` (the length the JS
engine reports), `none` when the attempt at this position fails. -/
def shippingMatchAt (l : List Char) : Option Nat :=
  let r := runLen isDigitChar l
  if 8 ≤ r ∧ r ≤ 12 ∧ (l.drop r).head? = some '-' ∧
      runLen isDigitChar (l.drop (r + 1)) = 4 ∧
      (l.drop (r + 5)).head? = some '-' then
    let g := runLen isDigitChar (l.drop (r + 6))
    if 2 ≤ g then some (r + 8)
    else if g = 1 then some (r + 7)
    else none
  else none

theorem shippingMatchAt_pos {l : List Char} {m : Nat}
    (h : shippingMatchAt l = some m) : 15 ≤ m := by
  simp only [shippingMatchAt] at h
  split at h
  · rename_i hc
    split at h
    · rw [Option.some.injEq] at h
      omega
    · split at h
      · rw [Option.some.injEq] at h
        omega
      · exact absurd h (by simp)
  · exact absurd h (by simp)

/-- Structural worker for `shippingScan`; the fuel argument only serves to
make the recursion structural and is irrelevant once it is at least the
text length (`shippingScanAux_congr`): every step consumes at least one
character. -/
def shippingScanAux : Nat → List Char → Nat → List (Nat × List Char)
  | 0, _, _ => []
  | _, [], _ => []
  | fuel + 1, c :: cs, i =>
    match shippingMatchAt (c :: cs) with
    | some m => (i, (c :: cs).take m) :: shippingScanAux fuel ((c :: cs).drop m) (i + m)
    | none => shippingScanAux fuel cs (i + 1)

/-- The `while ((match = shippingRegex.exec(fullText)) !== null)` loop of
`App.tsx` lines 87-91: all non-overlapping matches in scan order, as
`(start index, matched text)` pairs.  A failed attempt advances one
position; a successful one resumes at the end of the match (`lastIndex`). -/
def shippingScan (l : List Char) (i : Nat) : List (Nat × List Char) :=
  shippingScanAux l.length l i

theorem shippingScanAux_congr :
    ∀ (fuel fuel' : Nat) (l : List Char) (i : Nat),
      l.length ≤ fuel → l.length ≤ fuel' →
      shippingScanAux fuel l i = shippingScanAux fuel' l i := by
  intro fuel
  induction fuel with
  | zero =>
    intro fuel' l i h1 _
    have hl : l = [] := List.length_eq_zero.mp (Nat.le_zero.mp h1)
    subst hl
    cases fuel' <;> rfl
  | succ f ih =>
    intro fuel' l i h1 h2
    cases l with
    | nil => cases fuel' <;> rfl
    | cons c cs =>
      cases fuel' with
      | zero => simp at h2
      | succ f' =>
        simp only [shippingScanAux]
        cases hm : shippingMatchAt (c :: cs) with
        | some m =>
          dsimp only
          have h15 := shippingMatchAt_pos hm
          have hlen : ((c :: cs).drop m).length ≤ f := by
            simp only [List.length_drop, List.length_cons]
            simp only [List.length_cons] at h1
            omega
          have hlen' : ((c :: cs).drop m).length ≤ f' := by
            simp only [List.length_drop, List.length_cons]
            simp only [List.length_cons] at h2
            omega
          rw [ih f' _ _ hlen hlen']
        | none =>
          dsimp only
          have hlen : cs.length ≤ f := by
            simp only [List.length_cons] at h1; omega
          have hlen' : cs.length ≤ f' := by
            simp only [List.length_cons] at h2; omega
          exact ih f' _ _ hlen hlen'

/-- Step equation of the scan at a successful match. -/
theorem shippingScan_cons_match {c : Char} {cs : List Char} {m : Nat} (i : Nat)
    (hm : shippingMatchAt (c :: cs) = some m) :
    shippingScan (c :: cs) i =
      (i, (c :: cs).take m) :: shippingScan ((c :: cs).drop m) (i + m) := by
  have h15 := shippingMatchAt_pos hm
  simp only [shippingScan, List.length_cons, shippingScanAux, hm]
  rw [shippingScanAux_congr cs.length ((c :: cs).drop m).length _ (i + m)]
  · simp only [List.length_drop, List.length_cons]; omega
  · exact Nat.le_refl _

/-- Step equation of the scan at a failed match attempt. -/
theorem shippingScan_cons_none {c : Char} {cs : List Char} (i : Nat)
    (hm : shippingMatchAt (c :: cs) = none) :
    shippingScan (c :: cs) i = shippingScan cs (i + 1) := by
  simp only [shippingScan, List.length_cons, shippingScanAux, hm]

/-! ## Primary grammar

`App.tsx` line 107: `/(.*?)\s+(\S+)\s+(\d+)\s+(\d{4})\s*(?:\d+\s*)?$/`,
matched with `textBlock.match(...)` (leftmost match).

Once the position `j` where the `\s+` after the lazy group starts is fixed,
the rest is deterministic:

* `\s+ (\S+)`: the whitespace run is maximal (shortening it puts a
  whitespace character under `\S`), then the non-whitespace run is maximal
  (shortening it puts a non-whitespace character under `\s`), and similarly
  for the following `\s+ (\d+) \s+`.
* `(\d{4})` consumes exactly four digits.
* `\s* (?:\d+\s*)? $`: the whitespace run is maximal; then if a digit
  follows, the optional group must consume the whole remaining digit run
  and trailing whitespace and reach the end, otherwise the end must have
  been reached already.  Shortening any of these runs places a character
  of the same class where a different class (or the end anchor) is
  required, so no backtracking succeeds.

The leftmost-match rule together with the laziness of `(.*?)` means the
engine succeeds at the least position `j` at which the deterministic tail
matches, and group 1 is the terminator-free suffix of the text before `j`
(`.` does not cross line terminators, so the match start is pushed past the
last line terminator before `j`). -/

/-- Consume a maximal non-empty run of characters satisfying `p`; `none`
when the first character (if any) does not satisfy `p`. -/
def eatRun1 (p : Char → Bool) (l : List Char) : Option (List Char × List Char) :=
  let n := runLen p l
  if n = 0 then none else some (l.take n, l.drop n)

/-- Deterministic tail `\s+(\S+)\s+(\d+)\s+(\d{4})\s*(?:\d+\s*)?$` of the
primary grammar; returns the `(\S+)` capture (group 2, the article). -/
def tailMatch (l : List Char) : Option (List Char) :=
  match eatRun1 isSpaceChar l with
  | none => none
  | some (_, l1) =>
    match eatRun1 (fun c => !isSpaceChar c) l1 with
    | none => none
    | some (tok, l2) =>
      match eatRun1 isSpaceChar l2 with
      | none => none
      | some (_, l3) =>
        match eatRun1 isDigitChar l3 with
        | none => none
        | some (_, l4) =>
          match eatRun1 isSpaceChar l4 with
          | none => none
          | some (_, l5) =>
            if ((l5.take 4).length = 4 ∧ (l5.take 4).all isDigitChar) then
              let l6 := l5.drop 4
              let l7 := l6.drop (runLen isSpaceChar l6)
              let d2 := runLen isDigitChar l7
              if 0 < d2 then
                let l8 := l7.drop d2
                if l8.drop (runLen isSpaceChar l8) = [] then some tok else none
              else if l7 = [] then some tok else none
            else none

/-- Scan for the least position at which `tailMatch` succeeds. -/
def primGo (j : Nat) : List Char → Option (Nat × List Char)
  | [] => none
  | c :: cs =>
    match tailMatch (c :: cs) with
    | some tok => some (j, tok)
    | none => primGo (j + 1) cs

/-- `textBlock.match(rowEndRegex)` of `App.tsx` line 108, returning
`(group 1, group 2)` = `(raw product name, article)` on success. -/
def primaryMatch (l : List Char) : Option (List Char × List Char) :=
  match primGo 0 l with
  | some (j, tok) => some (lastSegment (l.take j), tok)
  | none => none

/-! ## Fallback grammar

`App.tsx` line 115: `[A-Za-z0-9]+` then a hyphen-or-slash class then
`[A-Za-z0-9]+`, matched with `textBlock.match(...)` (leftmost match,
`match.index` available).

At a fixed position the first `[A-Za-z0-9]+` run is maximal (shortening it
puts an alphanumeric character under the hyphen-or-slash class), then one
`-` or `/`, then a maximal non-empty alphanumeric run (end of pattern). -/

/-- Fallback-article match attempt at the head of `l`. -/
def fallbackAt (l : List Char) : Option (List Char) :=
  let r := runLen isAlnum l
  if r = 0 then none
  else
    match (l.drop r).head? with
    | some s =>
      if s = '-' ∨ s = '/' then
        let rest := l.drop (r + 1)
        let r2 := runLen isAlnum rest
        if r2 = 0 then none else some (l.take r ++ s :: rest.take r2)
      else none
    | none => none

/-- Leftmost fallback match with its start index (`articleMatch.index`). -/
def fallbackFind : List Char → Nat → Option (Nat × List Char)
  | [], _ => none
  | c :: cs, j =>
    match fallbackAt (c :: cs) with
    | some tok => some (j, tok)
    | none => fallbackFind cs (j + 1)

/-! ## Record extraction (`parseOrdersPdf`, `App.tsx` lines 73-138) -/

/-- The extracted record type of `App.tsx` lines 15-19. -/
structure OrderMapping where
  shippingNumber : List Char
  article : List Char
  productName : List Char
deriving DecidableEq

/-- `App.tsx` lines 102-125: parse one text block into
`(article, productName)`.  The primary grammar is tried first; on failure
the fallback article regex; the product name is then cleaned up
(`replace(/^\s*\d+\s*/, '').trim()`, line 125) in every case. -/
def parseBlock (textBlock : List Char) : List Char × List Char :=
  let ap :=
    match primaryMatch textBlock with
    | some (g1, g2) => (trimChars g2, trimChars g1)
    | none =>
      match fallbackFind textBlock 0 with
      | some (idx, tok) => (tok, trimChars (textBlock.take idx))
      | none => ([], textBlock)
  (ap.1, trimChars (stripLeadingNum ap.2))

/-- The record pushed at `App.tsx` lines 128-132. -/
def mkMapping (num : List Char) (textBlock : List Char) : OrderMapping :=
  { shippingNumber := num
    article := (parseBlock textBlock).1
    productName := (parseBlock textBlock).2 }

/-- `App.tsx` lines 93-134: for each shipping-number match, the text block
is `fullText.substring(index + number.length, next index or text length)`,
trimmed; the record is pushed under the truthiness guard
`if (currentMatch.number)` of line 127. -/
def blocksOf (l : List Char) : List (Nat × List Char) → List OrderMapping
  | [] => []
  | (i, num) :: rest =>
    let stop :=
      match rest.head? with
      | some q => q.1
      | none => l.length
    let textBlock := trimChars ((l.take stop).drop (i + num.length))
    (if num.isEmpty then [] else [mkMapping num textBlock]) ++ blocksOf l rest

/-- All records extracted from one page's concatenated text. -/
def parsePage (l : List Char) : List OrderMapping :=
  blocksOf l (shippingScan l 0)

/-- `parseOrdersPdf` over the per-page concatenated texts (the PDF text
extraction itself is an external collaborator; it supplies one
reading-order string per page, `App.tsx` line 82). -/
def parseOrdersPdf (pages : List (List Char)) : List OrderMapping :=
  (pages.map parsePage).flatten

/-- `mappings.find(m => m.shippingNumber === shippingNumber)` of
`App.tsx` line 166. -/
def lookupMapping (mappings : List OrderMapping) (n : List Char) :
    Option OrderMapping :=
  mappings.find? (fun m => m.shippingNumber == n)

/-! ## Page geometry and annotation (`processLabelsPdf`, `App.tsx` 140-238)

pdf-lib collaborator model: a page is its media box (origin `x`,`y` plus
`width`,`height`, rationals) and the ordered list of draw operations
already on it.  `page.getSize()` returns the media-box width and height;
`page.setSize(w, h)` rewrites the media-box size keeping the origin;
`page.setMediaBox(x, y, w, h)` rewrites the whole box; `drawRectangle` and
`drawText` append draw operations.  Font metrics are external: the width
function `String -> number` and the fixed `heightAtSize(14)` value are
parameters of the embedding. -/

/-- A pdf-lib draw operation (colors are fixed in the source and omitted). -/
inductive DrawOp where
  | rect (x y w h : ℚ)
  | text (s : List Char) (x y size : ℚ)
deriving DecidableEq

/-- A pdf-lib page: media box plus drawn content. -/
structure Page where
  x : ℚ
  y : ℚ
  width : ℚ
  height : ℚ
  content : List DrawOp
deriving DecidableEq

/-- `const extraHeight = 25` (`App.tsx` line 182). -/
def extraHeight : ℚ := 25

/-- `const fontSize = 14` (`App.tsx` line 177). -/
def fontSize : ℚ := 14

/-- The fixed label text prefix of `App.tsx` line 175. -/
def artText : List Char := ("Арт: ").data

/-- `App.tsx` lines 170-228: the mutation applied to one matched page.
`widthOf` embeds `customFont.widthOfTextAtSize(-, 14)` and `textHeight`
embeds `customFont.heightAtSize(14)` (external font collaborator). -/
def annotatePage (widthOf : List Char → ℚ) (textHeight : ℚ)
    (page : Page) (article : List Char) : Page :=
  let width := page.width
  let height := page.height
  let textToDraw := artText ++ article
  let textWidth := widthOf textToDraw
  -- pdfPage.setSize(width, height + extraHeight)  (line 183)
  let p1 : Page := { page with width := width, height := height + extraHeight }
  -- const { x, y, width: boxWidth, height: boxHeight } = pdfPage.getMediaBox()  (line 198)
  let x := p1.x
  let y := p1.y
  let boxWidth := p1.width
  let boxHeight := p1.height
  -- pdfPage.setMediaBox(x, y - extraHeight, boxWidth, boxHeight + extraHeight)  (line 201)
  let p2 : Page := { p1 with x := x, y := y - extraHeight,
                             width := boxWidth, height := boxHeight + extraHeight }
  let newBottomY := y - extraHeight
  let xPos := (width - textWidth) / 2
  let yPos := newBottomY + 5
  -- pdfPage.drawRectangle(...)  (lines 213-219)
  let p3 : Page := { p2 with content := p2.content ++
    [DrawOp.rect (xPos - 5) (yPos - 2) (textWidth + 10) (textHeight + 4)] }
  -- pdfPage.drawText(...)  (lines 222-228)
  { p3 with content := p3.content ++ [DrawOp.text textToDraw xPos yPos fontSize] }

/-- One page of the labels document: its extracted text (pdf.js view) and
its mutable pdf-lib page. -/
structure LabelPage where
  text : List Char
  page : Page
deriving DecidableEq

/-- `fullText.match(shippingRegex)` of `App.tsx` lines 161-162 (non-global
regex: first match only). -/
def firstShip (l : List Char) : Option (List Char) :=
  match shippingScan l 0 with
  | [] => none
  | (_, num) :: _ => some num

/-- The body of the per-page loop of `App.tsx` lines 155-231: returns the
(possibly annotated) page and whether `modifiedCount` was incremented. -/
def processPage (widthOf : List Char → ℚ) (textHeight : ℚ)
    (mappings : List OrderMapping) (lp : LabelPage) : Page × Bool :=
  match firstShip lp.text with
  | none => (lp.page, false)
  | some n =>
    match lookupMapping mappings n with
    | none => (lp.page, false)
    | some mapping => (annotatePage widthOf textHeight lp.page mapping.article, true)

/-- Error message thrown at `App.tsx` line 234 (`NoMatchesFound`). -/
def noMatchesMsg : String :=
  "Не удалось найти совпадения номеров отправлений между файлами."

/-- Error message thrown at `App.tsx` line 44 (`NoRecordsExtracted`). -/
def noRecordsMsg : String :=
  "Не удалось найти данные о заказах в файле со списком."

/-- `processLabelsPdf` (`App.tsx` lines 140-238): process every labels page
in order, then fail when `modifiedCount === 0`, else serialize (return) the
mutated pages. -/
def processLabelsPdf (widthOf : List Char → ℚ) (textHeight : ℚ)
    (pages : List LabelPage) (mappings : List OrderMapping) :
    Except String (List Page) :=
  let results := pages.map (processPage widthOf textHeight mappings)
  if results.countP (fun r => r.2) = 0 then Except.error noMatchesMsg
  else Except.ok (results.map Prod.fst)

/-- `handleProcess` (`App.tsx` lines 28-71), after both files are supplied
and text-extracted: parse the orders document, fail when no mappings were
found (line 43-45, before the labels buffer is even read), else process the
labels document. -/
def handleProcess (widthOf : List Char → ℚ) (textHeight : ℚ)
    (ordersPages : List (List Char)) (labels : List LabelPage) :
    Except String (List Page) :=
  let mappings := parseOrdersPdf ordersPages
  if mappings.isEmpty then Except.error noRecordsMsg
  else processLabelsPdf widthOf textHeight labels mappings

/-! ## Spec-side definitions

Definitions written from the specification's words, for comparison with
the implementation above. -/

/-- Whether a whole string matches the shipment-number pattern of the
spec (section 3): the source pattern, anchored to the full string. -/
def isShipmentNumber (l : List Char) : Bool :=
  shippingMatchAt l == some l.length

/-- Modelled from the spec (section 4.1, step 2): "for each match `i`,
define its text block as the substring from the end of match `i` to the
start of match `i+1` (or end of page text for the last match)". -/
def specBlockText (l : List Char) (j : Nat) : List Char :=
  match (shippingScan l 0)[j]? with
  | none => []
  | some (i, num) =>
    let stop :=
      match (shippingScan l 0)[j + 1]? with
      | some q => q.1
      | none => l.length
    (l.take stop).drop (i + num.length)

/-- A token of the shape required by the fallback grammar (spec section
4.1, step 4): a non-empty alphanumeric run, a `-` or `/` separator, and a
non-empty alphanumeric run. -/
def ArticleShaped (t : List Char) : Prop :=
  ∃ a s b, t = a ++ s :: b ∧ a ≠ [] ∧ b ≠ [] ∧
    (∀ c ∈ a, isAlnum c = true) ∧ (s = '-' ∨ s = '/') ∧
    (∀ c ∈ b, isAlnum c = true)

/-- The token `t` occurs in `l` starting at position `q`. -/
def TokenAt (l : List Char) (q : Nat) (t : List Char) : Prop :=
  ∃ rest, l.drop q = t ++ rest ∧ ArticleShaped t

/-- The block contains some article-shaped token (spec's fallback
precondition). -/
def hasArticleToken (l : List Char) : Prop :=
  ∃ q t, TokenAt l q t

/-- Whether a labels page's shipment number resolves against the mapping
table (spec section 4.3). -/
def pageResolves (mappings : List OrderMapping) (lp : LabelPage) : Bool :=
  match firstShip lp.text with
  | none => false
  | some n => (lookupMapping mappings n).isSome

/-! ## General helper lemmas -/

theorem runLen_le_length (p : Char → Bool) (l : List Char) :
    runLen p l ≤ l.length := by
  induction l with
  | nil => simp [runLen]
  | cons c cs ih =>
    simp only [runLen, List.length_cons]
    split <;> omega

theorem runLen_append (p : Char → Bool) (a b : List Char) :
    runLen p (a ++ b) =
      if runLen p a = a.length then a.length + runLen p b else runLen p a := by
  induction a with
  | nil => simp [runLen]
  | cons c cs ih =>
    simp only [List.cons_append, runLen, List.length_cons, List.append_eq]
    by_cases hc : p c
    · rw [if_pos hc, if_pos hc, ih]
      have := runLen_le_length p cs
      split <;> split <;> omega
    · rw [if_neg hc, if_neg hc]
      have := runLen_le_length p cs
      rw [if_neg (by omega)]

theorem runLen_all {p : Char → Bool} {a : List Char}
    (h : ∀ c ∈ a, p c = true) : runLen p a = a.length := by
  induction a with
  | nil => simp [runLen]
  | cons c cs ih =>
    simp only [runLen, List.length_cons]
    rw [if_pos (h c (by simp))]
    rw [ih (fun x hx => h x (by simp [hx]))]

theorem runLen_append_all {p : Char → Bool} {a : List Char} (b : List Char)
    (h : ∀ c ∈ a, p c = true) :
    runLen p (a ++ b) = a.length + runLen p b := by
  rw [runLen_append, if_pos (runLen_all h)]

theorem runLen_append_lt {p : Char → Bool} {a : List Char} (b : List Char)
    (h : runLen p a < a.length) :
    runLen p (a ++ b) = runLen p a := by
  rw [runLen_append, if_neg (by omega)]

theorem runLen_cons_false {p : Char → Bool} {c : Char} (cs : List Char)
    (h : p c = false) : runLen p (c :: cs) = 0 := by
  simp [runLen, h]

theorem runLen_take_all (p : Char → Bool) (l : List Char) :
    ∀ c ∈ l.take (runLen p l), p c = true := by
  induction l with
  | nil => simp
  | cons x xs ih =>
    simp only [runLen]
    split
    · rename_i hx
      intro c hc
      simp only [List.take_cons_succ, List.mem_cons] at hc
      rcases hc with hc | hc
      · exact hc ▸ hx
      · exact ih c hc
    · simp

theorem head?_append_left {a : List Char} (b : List Char) (h : a ≠ []) :
    (a ++ b).head? = a.head? := by
  cases a with
  | nil => exact absurd rfl h
  | cons c cs => rfl

theorem head?_drop_lt {l : List Char} {k : Nat} {c : Char}
    (h : (l.drop k).head? = some c) : k < l.length := by
  by_contra hk
  rw [List.drop_eq_nil_of_le (by omega)] at h
  exact Option.noConfusion h

theorem head?_dropWhile_false {p : Char → Bool} {l : List Char} {c : Char}
    (h : (l.dropWhile p).head? = some c) : p c = false := by
  induction l with
  | nil => simp [List.dropWhile] at h
  | cons x xs ih =>
    rw [List.dropWhile_cons] at h
    split at h
    · exact ih h
    · rename_i hx
      simp at h
      subst h
      simpa using hx

/-- The head of a trimmed string is never whitespace. -/
theorem trimChars_head_not_space {l : List Char} {c : Char}
    (h : (trimChars l).head? = some c) : isSpaceChar c = false := by
  unfold trimChars at h
  set m := l.dropWhile isSpaceChar with hm
  have hpref : ∃ t, (m.reverse.dropWhile isSpaceChar).reverse ++ t = m := by
    obtain ⟨u, hu⟩ := List.dropWhile_suffix (l := m.reverse) (p := isSpaceChar)
    refine ⟨u.reverse, ?_⟩
    have := congrArg List.reverse hu
    simpa [List.reverse_append] using this
  obtain ⟨t, ht⟩ := hpref
  have hmhead : m.head? = some c := by
    rw [← ht]
    cases hrv : (m.reverse.dropWhile isSpaceChar).reverse with
    | nil => rw [hrv] at h; exact absurd h (by simp)
    | cons x xs =>
      rw [hrv] at h
      simp only [List.head?_cons, Option.some.injEq] at h
      subst h
      simp
  exact head?_dropWhile_false hmhead

/-- All characters of a trim-stable no-space list survive `trimChars`. -/
theorem trimChars_of_no_space {l : List Char}
    (h : ∀ c ∈ l, isSpaceChar c = false) : trimChars l = l := by
  unfold trimChars
  have h1 : l.dropWhile isSpaceChar = l := by
    rw [List.dropWhile_eq_self_iff]
    intro hlen
    simp [h _ (List.getElem_mem hlen)]
  rw [h1]
  have h2 : l.reverse.dropWhile isSpaceChar = l.reverse := by
    rw [List.dropWhile_eq_self_iff]
    intro hlen
    have hlen' : 0 < l.length := by simpa using hlen
    have hmem : l[l.length - 1] ∈ l := List.getElem_mem (by omega)
    simpa using h _ hmem
  rw [h2, List.reverse_reverse]

theorem drop_ne_nil_of_lt {l : List Char} {k : Nat} (h : k < l.length) :
    l.drop k ≠ [] := by
  intro hnil
  have := congrArg List.length hnil
  simp only [List.length_drop, List.length_nil] at this
  omega

/-- A full-string shipping-number match extends to a match of the same
length at the head of any extension whose first character is not a digit
(the final greedy `\d{1,2}` cannot grow into the extension). -/
theorem shippingMatchAt_full_append (s rest : List Char)
    (h : shippingMatchAt s = some s.length)
    (hrest : runLen isDigitChar rest = 0) :
    shippingMatchAt (s ++ rest) = some s.length := by
  simp only [shippingMatchAt] at h
  split at h
  case isFalse => exact absurd h (by simp)
  case isTrue hc =>
    obtain ⟨h8, h12, hdash1, hd4, hdash2⟩ := hc
    have hr5 : runLen isDigitChar s + 5 < s.length := head?_drop_lt hdash2
    have hra : runLen isDigitChar (s ++ rest) = runLen isDigitChar s := by
      rw [runLen_append, if_neg (by omega)]
    have hd1a : ((s ++ rest).drop (runLen isDigitChar s)).head? = some '-' := by
      rw [List.drop_append_of_le_length (by omega),
        head?_append_left _ (drop_ne_nil_of_lt (by omega))]
      exact hdash1
    have hd4a : runLen isDigitChar ((s ++ rest).drop (runLen isDigitChar s + 1)) = 4 := by
      rw [List.drop_append_of_le_length (by omega), runLen_append, hd4,
        if_neg (by simp only [List.length_drop]; omega)]
    have hd2a : ((s ++ rest).drop (runLen isDigitChar s + 5)).head? = some '-' := by
      rw [List.drop_append_of_le_length (by omega),
        head?_append_left _ (drop_ne_nil_of_lt (by omega))]
      exact hdash2
    simp only [shippingMatchAt]
    rw [hra, hd1a, hd4a, hd2a, if_pos ⟨h8, h12, rfl, rfl, rfl⟩]
    have hgle := runLen_le_length isDigitChar (s.drop (runLen isDigitChar s + 6))
    simp only [List.length_drop] at hgle
    split at h
    case isTrue hg =>
      rw [Option.some.injEq] at h
      have hglen : runLen isDigitChar (s.drop (runLen isDigitChar s + 6)) =
          (s.drop (runLen isDigitChar s + 6)).length := by
        simp only [List.length_drop]
        omega
      have hga : runLen isDigitChar ((s ++ rest).drop (runLen isDigitChar s + 6)) = 2 := by
        rw [List.drop_append_of_le_length (by omega), runLen_append, if_pos hglen,
          hrest, List.length_drop]
        omega
      rw [hga, if_pos (by omega), ← h]
    case isFalse hg =>
      split at h
      case isFalse => exact absurd h (by simp)
      case isTrue hg1 =>
        rw [Option.some.injEq] at h
        have hglen : runLen isDigitChar (s.drop (runLen isDigitChar s + 6)) =
            (s.drop (runLen isDigitChar s + 6)).length := by
          simp only [List.length_drop]
          omega
        have hga : runLen isDigitChar ((s ++ rest).drop (runLen isDigitChar s + 6)) = 1 := by
          rw [List.drop_append_of_le_length (by omega), runLen_append, if_pos hglen,
            hrest, List.length_drop]
          omega
        rw [hga, if_neg (by omega), if_pos rfl, ← h]

theorem shippingScanAux_shift :
    ∀ (fuel : Nat) (l : List Char) (i j : Nat),
      shippingScanAux fuel l (i + j) =
        (shippingScanAux fuel l j).map (fun p => (p.1 + i, p.2)) := by
  intro fuel
  induction fuel with
  | zero => intro l i j; cases l <;> rfl
  | succ f ih =>
    intro l i j
    cases l with
    | nil => rfl
    | cons c cs =>
      simp only [shippingScanAux]
      cases hm : shippingMatchAt (c :: cs) with
      | some m =>
        dsimp only
        simp only [List.map_cons]
        congr 1
        · rw [Nat.add_comm i j]
        · rw [show i + j + m = i + (j + m) from by omega]
          exact ih _ i (j + m)
      | none =>
        dsimp only
        rw [show i + j + 1 = i + (j + 1) from by omega]
        exact ih cs i (j + 1)

/-- The scan's start-index argument only shifts the reported indices. -/
theorem shippingScan_shift (l : List Char) (i : Nat) :
    shippingScan l i = (shippingScan l 0).map (fun p => (p.1 + i, p.2)) := by
  have := shippingScanAux_shift l.length l i 0
  simpa using this

theorem parseOrdersPdf_singleton (t : List Char) :
    parseOrdersPdf [t] = parsePage t := by
  simp [parseOrdersPdf]

/-- C1: for every string `s` matching the shipment-number pattern, running
the orders parser on a page whose concatenated text is
`s ++ " ProductName F/034 1 1785"` produces exactly one record, with
`shipmentNumber = s`, `article = "F/034"`, `productName = "ProductName"`. -/
theorem C1_single_row (s : List Char) (h : isShipmentNumber s = true) :
    parseOrdersPdf [s ++ (" ProductName F/034 1 1785").data] =
      [{ shippingNumber := s, article := ("F/034").data,
         productName := ("ProductName").data }] := by
  simp only [isShipmentNumber, beq_iff_eq] at h
  have h15 := shippingMatchAt_pos h
  obtain ⟨c, cs, rfl⟩ : ∃ c cs, s = c :: cs := by
    cases s with
    | nil => simp at h15
    | cons c cs => exact ⟨c, cs, rfl⟩
  have hrest0 : runLen isDigitChar ((" ProductName F/034 1 1785").data) = 0 := by
    decide
  have hm2 := shippingMatchAt_full_append (c :: cs)
    ((" ProductName F/034 1 1785").data) h hrest0
  have hscan : shippingScan ((c :: cs) ++ (" ProductName F/034 1 1785").data) 0 =
      [(0, c :: cs)] := by
    rw [List.cons_append]
    rw [List.cons_append] at hm2
    rw [shippingScan_cons_match 0 hm2]
    rw [← List.cons_append]
    rw [List.take_left, List.drop_left]
    rw [shippingScan_shift, show shippingScan ((" ProductName F/034 1 1785").data) 0 =
      [] from by decide]
    rfl
  rw [parseOrdersPdf_singleton, parsePage, hscan, blocksOf]
  simp only [List.head?_nil, List.take_length, Nat.zero_add, List.drop_left,
    List.isEmpty_cons, Bool.false_eq_true, if_false, blocksOf, List.append_nil]
  simp only [mkMapping, List.cons.injEq, OrderMapping.mk.injEq, and_true]
  exact ⟨trivial, by decide, by decide⟩

/-- Witness for `C1_single_row` at the concrete shipment number of the
spec's end-to-end scenario. -/
theorem C1_single_row_witness :
    isShipmentNumber (("0149711785-0110-1").data) = true ∧
    parseOrdersPdf [("0149711785-0110-1").data ++ (" ProductName F/034 1 1785").data] =
      [{ shippingNumber := ("0149711785-0110-1").data, article := ("F/034").data,
         productName := ("ProductName").data }] :=
  ⟨by decide, C1_single_row (("0149711785-0110-1").data) (by decide)⟩

/-- A concrete labels page used to evaluate the annotation geometry. -/
def pageA : Page := { x := 0, y := 0, width := 400, height := 100, content := [] }

/-- C2 (code bug): the claim (and spec section 4.4 / section 8) says the
annotated page height equals the old height plus `extraHeight`, but the
source applies the growth twice: `setSize(width, height + extraHeight)`
(line 183) already enlarges the media box, and `setMediaBox(x,
y - extraHeight, boxWidth, boxHeight + extraHeight)` (line 201) enlarges
the *already enlarged* `boxHeight` again, so the final height is the old
height plus `2 * extraHeight`.  Evaluated at a 400x100 page: the result
height is 150, not 100 + 25 = 125. -/
theorem C2_height_evaluation :
    (annotatePage (fun _ => 50) 16 pageA (("F/034").data)).height = 150 ∧
    pageA.height + extraHeight = 125 ∧
    (annotatePage (fun _ => 50) 16 pageA (("F/034").data)).height ≠
      pageA.height + extraHeight := by
  refine ⟨?_, ?_, ?_⟩ <;> norm_num [annotatePage, pageA, extraHeight]

/-- C3: after annotation the bottom edge (media-box `y`) is the old bottom
minus `extraHeight`, and the appended background rectangle and text run lie
inside the newly created band `[y - extraHeight, y]` below the old bottom
edge.  The font-metric parameter is constrained to the realistic range
`0 ≤ textHeight ≤ 18` (an external Roboto metric: `heightAtSize(14)` is
about 16.4); the rectangle spans vertically from `y - 22` to
`y - 18 + textHeight`, and the text baseline sits at `y - 20`. -/
theorem C3_bottom_band (widthOf : List Char → ℚ) (textHeight : ℚ)
    (page : Page) (article : List Char)
    (h1 : 0 ≤ textHeight) (h2 : textHeight ≤ 18) :
    (annotatePage widthOf textHeight page article).y = page.y - extraHeight ∧
    (annotatePage widthOf textHeight page article).content =
      page.content ++
        [DrawOp.rect ((page.width - widthOf (artText ++ article)) / 2 - 5)
           (page.y - extraHeight + 5 - 2)
           (widthOf (artText ++ article) + 10) (textHeight + 4),
         DrawOp.text (artText ++ article)
           ((page.width - widthOf (artText ++ article)) / 2)
           (page.y - extraHeight + 5) fontSize] ∧
    page.y - extraHeight ≤ page.y - extraHeight + 5 - 2 ∧
    (page.y - extraHeight + 5 - 2) + (textHeight + 4) ≤ page.y ∧
    page.y - extraHeight ≤ page.y - extraHeight + 5 ∧
    page.y - extraHeight + 5 ≤ page.y := by
  refine ⟨by simp [annotatePage], by simp [annotatePage], ?_, ?_, ?_, ?_⟩
  · simp only [extraHeight]; linarith
  · simp only [extraHeight]; linarith
  · simp only [extraHeight]; linarith
  · simp only [extraHeight]; linarith

/-- Witness for `C3_bottom_band` at a concrete page and metric. -/
theorem C3_bottom_band_witness :
    (annotatePage (fun _ => 50) 16 pageA (("F/034").data)).y = pageA.y - extraHeight ∧
    (annotatePage (fun _ => 50) 16 pageA (("F/034").data)).content =
      pageA.content ++
        [DrawOp.rect ((pageA.width - (fun _ => (50:ℚ)) (artText ++ ("F/034").data)) / 2 - 5)
           (pageA.y - extraHeight + 5 - 2)
           ((fun _ => (50:ℚ)) (artText ++ ("F/034").data) + 10) ((16:ℚ) + 4),
         DrawOp.text (artText ++ ("F/034").data)
           ((pageA.width - (fun _ => (50:ℚ)) (artText ++ ("F/034").data)) / 2)
           (pageA.y - extraHeight + 5) fontSize] ∧
    pageA.y - extraHeight ≤ pageA.y - extraHeight + 5 - 2 ∧
    (pageA.y - extraHeight + 5 - 2) + ((16:ℚ) + 4) ≤ pageA.y ∧
    pageA.y - extraHeight ≤ pageA.y - extraHeight + 5 ∧
    pageA.y - extraHeight + 5 ≤ pageA.y :=
  C3_bottom_band (fun _ => 50) 16 pageA (("F/034").data) (by norm_num) (by norm_num)

theorem processPage_modified_iff (widthOf : List Char → ℚ) (textHeight : ℚ)
    (mappings : List OrderMapping) (lp : LabelPage) :
    (processPage widthOf textHeight mappings lp).2 = pageResolves mappings lp := by
  simp only [processPage, pageResolves]
  cases firstShip lp.text with
  | none => rfl
  | some n =>
    cases h : lookupMapping mappings n with
    | none => simp [h]
    | some mapping => simp [h]

/-- C4: when no labels page's first shipment number resolves against the
mapping table, `processLabelsPdf` fails with the no-matches error (and
returns no pages, since `Except.error` carries no output); when at least
one page resolves, that error is not raised and the mutated pages are
returned. -/
theorem C4_no_matches (widthOf : List Char → ℚ) (textHeight : ℚ)
    (pages : List LabelPage) (mappings : List OrderMapping) :
    ((∀ lp ∈ pages, pageResolves mappings lp = false) →
      processLabelsPdf widthOf textHeight pages mappings = Except.error noMatchesMsg) ∧
    ((∃ lp ∈ pages, pageResolves mappings lp = true) →
      ∃ out, processLabelsPdf widthOf textHeight pages mappings = Except.ok out) := by
  constructor
  · intro hall
    simp only [processLabelsPdf]
    rw [if_pos]
    rw [List.countP_eq_zero]
    intro r hr
    obtain ⟨lp, hlp, rfl⟩ := List.mem_map.mp hr
    simp [processPage_modified_iff, hall lp hlp]
  · rintro ⟨lp, hlp, hres⟩
    simp only [processLabelsPdf]
    rw [if_neg]
    · exact ⟨_, rfl⟩
    · intro h0
      rw [List.countP_eq_zero] at h0
      have hmem := h0 (processPage widthOf textHeight mappings lp)
        (List.mem_map_of_mem _ hlp)
      rw [processPage_modified_iff widthOf textHeight mappings lp] at hmem
      simp [hres] at hmem

/-- Witness for `C4_no_matches`: a labels page whose shipment number is
absent from an empty mapping table fails with the no-matches error. -/
theorem C4_no_matches_witness :
    processLabelsPdf (fun _ => 50) 16
      [{ text := ("99999999-9999-9").data, page := pageA }] [] =
      Except.error noMatchesMsg :=
  (C4_no_matches (fun _ => 50) 16
    [{ text := ("99999999-9999-9").data, page := pageA }] []).1 (by decide)

/-- C5: when the orders document yields an empty mapping table, the run
fails with the no-records error, for *every* labels document (so before
any label page is examined, and producing no output pages). -/
theorem C5_no_records (widthOf : List Char → ℚ) (textHeight : ℚ)
    (ordersPages : List (List Char))
    (h : parseOrdersPdf ordersPages = []) :
    ∀ labels : List LabelPage,
      handleProcess widthOf textHeight ordersPages labels =
        Except.error noRecordsMsg := by
  intro labels
  simp [handleProcess, h]

/-- Witness for `C5_no_records` on a one-page orders document with no
shipment-number token. -/
theorem C5_no_records_witness :
    handleProcess (fun _ => 50) 16 [("hello world").data]
      [{ text := ("11111111-1111-1").data, page := pageA }] =
      Except.error noRecordsMsg :=
  C5_no_records (fun _ => 50) 16 [("hello world").data] (by decide)
    [{ text := ("11111111-1111-1").data, page := pageA }]

theorem find?_append_of_none {p : OrderMapping → Bool} {pre : List OrderMapping}
    (l : List OrderMapping) (h : ∀ m ∈ pre, p m = false) :
    List.find? p (pre ++ l) = List.find? p l := by
  induction pre with
  | nil => rfl
  | cons a as ih =>
    rw [List.cons_append, List.find?_cons_of_neg _ (by simp [h a (by simp)])]
    exact ih (fun m hm => h m (by simp [hm]))

/-- C6: if the same shipment number occurs in two extracted rows, lookup
during label processing (`Array.prototype.find` over the mapping list in
construction order) returns the record of the first occurrence in scan
order, never a later one. -/
theorem C6_first_wins (pages : List (List Char)) (n : List Char)
    (pre post : List OrderMapping) (r : OrderMapping)
    (hsplit : parseOrdersPdf pages = pre ++ r :: post)
    (hn : r.shippingNumber = n)
    (hpre : ∀ m ∈ pre, m.shippingNumber ≠ n) :
    lookupMapping (parseOrdersPdf pages) n = some r := by
  rw [hsplit, lookupMapping,
    find?_append_of_none _ (fun m hm => by simp [hpre m hm])]
  exact List.find?_cons_of_pos _ (by simp [hn])

/-- Witness for `C6_first_wins`: one orders page repeating a shipment
number with two different articles; lookup returns the first record. -/
theorem C6_first_wins_witness :
    lookupMapping
      (parseOrdersPdf
        [("11111111-1111-1 Name A/1 1 1785 11111111-1111-1 Name B/2 1 1785").data])
      (("11111111-1111-1").data) =
      some { shippingNumber := ("11111111-1111-1").data, article := ("A/1").data,
             productName := ("Name").data } :=
  C6_first_wins
    [("11111111-1111-1 Name A/1 1 1785 11111111-1111-1 Name B/2 1 1785").data]
    (("11111111-1111-1").data)
    []
    [{ shippingNumber := ("11111111-1111-1").data, article := ("B/2").data,
       productName := ("Name").data }]
    { shippingNumber := ("11111111-1111-1").data, article := ("A/1").data,
      productName := ("Name").data }
    (by decide) (by decide) (by decide)

theorem shippingScanAux_num_ne_nil :
    ∀ (fuel : Nat) (l : List Char) (i : Nat) (p : Nat × List Char),
      p ∈ shippingScanAux fuel l i → p.2 ≠ [] := by
  intro fuel
  induction fuel with
  | zero => intro l i p hp; cases l <;> simp [shippingScanAux] at hp
  | succ f ih =>
    intro l i p hp
    cases l with
    | nil => simp [shippingScanAux] at hp
    | cons c cs =>
      simp only [shippingScanAux] at hp
      cases hm : shippingMatchAt (c :: cs) with
      | some m =>
        rw [hm] at hp
        simp only [List.mem_cons] at hp
        rcases hp with hp | hp
        · subst hp
          have h15 := shippingMatchAt_pos hm
          intro hnil
          have := congrArg List.length hnil
          simp only [List.length_take, List.length_cons, List.length_nil] at this
          omega
        · exact ih _ _ p hp
      | none =>
        rw [hm] at hp
        exact ih _ _ p hp

theorem shippingScan_num_ne_nil {l : List Char} {p : Nat × List Char}
    (hp : p ∈ shippingScan l 0) : p.2 ≠ [] :=
  shippingScanAux_num_ne_nil l.length l 0 p hp

theorem isEmpty_false_of_ne_nil {num : List Char} (h : num ≠ []) :
    num.isEmpty = false := by
  cases num with
  | nil => exact absurd rfl h
  | cons _ _ => rfl

theorem blocksOf_length (l : List Char) :
    ∀ (ms : List (Nat × List Char)), (∀ p ∈ ms, p.2 ≠ []) →
      (blocksOf l ms).length = ms.length := by
  intro ms
  induction ms with
  | nil => intro _; rfl
  | cons a as ih =>
    intro h
    obtain ⟨i0, num0⟩ := a
    have hne : num0.isEmpty = false :=
      isEmpty_false_of_ne_nil (h (i0, num0) (by simp))
    simp only [blocksOf, hne, Bool.false_eq_true, if_false, List.singleton_append,
      List.length_cons]
    rw [ih (fun p hp => h p (by simp [hp]))]

theorem blocksOf_get (l : List Char) :
    ∀ (ms : List (Nat × List Char)), (∀ p ∈ ms, p.2 ≠ []) →
      ∀ (j i : Nat) (num : List Char), ms[j]? = some (i, num) →
      (blocksOf l ms)[j]? = some (mkMapping num (trimChars
        ((l.take (match ms[j + 1]? with | some q => q.1 | none => l.length)).drop
          (i + num.length)))) := by
  intro ms
  induction ms with
  | nil => intro _ j i num h; simp at h
  | cons a as ih =>
    intro hnil j i num hj
    obtain ⟨i0, num0⟩ := a
    have hne : num0.isEmpty = false :=
      isEmpty_false_of_ne_nil (hnil (i0, num0) (by simp))
    cases j with
    | zero =>
      simp only [List.getElem?_cons_zero, Option.some.injEq, Prod.mk.injEq] at hj
      obtain ⟨rfl, rfl⟩ := hj
      simp only [blocksOf, hne, Bool.false_eq_true, if_false, List.singleton_append,
        List.getElem?_cons_zero, List.getElem?_cons_succ, Option.some.injEq]
      have hhead : as[0]? = as.head? := by
        cases as <;> simp
      rw [hhead]
    | succ j' =>
      simp only [List.getElem?_cons_succ] at hj
      simp only [blocksOf, hne, Bool.false_eq_true, if_false, List.singleton_append,
        List.getElem?_cons_succ]
      exact ih (fun p hp => hnil p (by simp [hp])) j' i num hj

/-- C8: for a page text with `n` shipping-number matches, the segmenter
emits exactly `n` records, the `j`-th keyed by the `j`-th match in scan
order, with its text block equal (after trimming) to the spec-described
substring from the end of match `j` to the start of match `j+1` (or the end
of the page text); and the record is emitted even when both grammars fail
on the block, in which case its article is empty. -/
theorem C8_segmentation (l : List Char) (j i : Nat) (num : List Char)
    (hj : (shippingScan l 0)[j]? = some (i, num)) :
    (parsePage l).length = (shippingScan l 0).length ∧
    (parsePage l)[j]? = some (mkMapping num (trimChars (specBlockText l j))) ∧
    (primaryMatch (trimChars (specBlockText l j)) = none →
      fallbackFind (trimChars (specBlockText l j)) 0 = none →
      (mkMapping num (trimChars (specBlockText l j))).article = []) := by
  have hnil : ∀ p ∈ shippingScan l 0, p.2 ≠ [] :=
    fun p hp => shippingScan_num_ne_nil hp
  refine ⟨blocksOf_length l _ hnil, ?_, ?_⟩
  · have := blocksOf_get l (shippingScan l 0) hnil j i num hj
    rw [parsePage, this, specBlockText, hj]
  · intro h1 h2
    simp [mkMapping, parseBlock, h1, h2]

/-- Witness for `C8_segmentation` at a two-match page whose second block
defeats both grammars (Cyrillic text, no digits, no separator token). -/
theorem C8_segmentation_witness :
    (parsePage (("11111111-1111-1 Name A/1 1 1785 22222222-2222-2 абв где").data)).length =
      (shippingScan (("11111111-1111-1 Name A/1 1 1785 22222222-2222-2 абв где").data) 0).length ∧
    (parsePage (("11111111-1111-1 Name A/1 1 1785 22222222-2222-2 абв где").data))[1]? =
      some (mkMapping (("22222222-2222-2").data) (trimChars (specBlockText
        (("11111111-1111-1 Name A/1 1 1785 22222222-2222-2 абв где").data) 1))) ∧
    (primaryMatch (trimChars (specBlockText
        (("11111111-1111-1 Name A/1 1 1785 22222222-2222-2 абв где").data) 1)) = none →
      fallbackFind (trimChars (specBlockText
        (("11111111-1111-1 Name A/1 1 1785 22222222-2222-2 абв где").data) 1)) 0 = none →
      (mkMapping (("22222222-2222-2").data) (trimChars (specBlockText
        (("11111111-1111-1 Name A/1 1 1785 22222222-2222-2 абв где").data) 1))).article = []) :=
  C8_segmentation (("11111111-1111-1 Name A/1 1 1785 22222222-2222-2 абв где").data)
    1 32 (("22222222-2222-2").data) (by decide)

theorem isDigitChar_not_space {c : Char} (h : isDigitChar c = true) :
    isSpaceChar c = false := by
  simp only [isDigitChar, Bool.and_eq_true, decide_eq_true_eq] at h
  simp only [isSpaceChar, Bool.or_eq_false_iff, Bool.and_eq_false_iff,
    decide_eq_false_iff_not]
  omega

theorem isSpaceChar_not_digit {c : Char} (h : isSpaceChar c = true) :
    isDigitChar c = false := by
  simp only [isSpaceChar, Bool.or_eq_true, Bool.and_eq_true, decide_eq_true_eq] at h
  simp only [isDigitChar, Bool.and_eq_false_iff, decide_eq_false_iff_not]
  omega

theorem isLineTerm_is_space {c : Char} (h : isLineTerm c = true) :
    isSpaceChar c = true := by
  simp only [isLineTerm, Bool.or_eq_true, decide_eq_true_eq] at h
  simp only [isSpaceChar, Bool.or_eq_true, Bool.and_eq_true, decide_eq_true_eq]
  omega

theorem not_space_not_term {c : Char} (h : isSpaceChar c = false) :
    isLineTerm c = false := by
  cases ht : isLineTerm c with
  | false => rfl
  | true => rw [isLineTerm_is_space ht] at h; exact Bool.noConfusion h

/-! ## C9 -/

/-- C9 counterexample: the page text `"11111111-1111-1 12 34 Abc A/1"`
produces a record whose product name is `"34 Abc"`: the cleanup of
`App.tsx` line 125 removes only the *first* leading digit run, so a product
name can still begin with a digit, refuting "no emitted record's
productName begins with a digit". -/
theorem C9_counterexample :
    parseOrdersPdf [("11111111-1111-1 12 34 Abc A/1").data] =
      [{ shippingNumber := ("11111111-1111-1").data, article := ("A/1").data,
         productName := ("34 Abc").data }] ∧
    (("34 Abc").data).head? = some '3' ∧ isDigitChar '3' = true := by
  exact ⟨by decide, by decide, by decide⟩

theorem mem_blocksOf (l : List Char) :
    ∀ (ms : List (Nat × List Char)) (r : OrderMapping), r ∈ blocksOf l ms →
      ∃ num b, r = mkMapping num b := by
  intro ms
  induction ms with
  | nil => intro r hr; simp [blocksOf] at hr
  | cons a as ih =>
    intro r hr
    obtain ⟨i0, num0⟩ := a
    simp only [blocksOf, List.mem_append] at hr
    rcases hr with hr | hr
    · split at hr
      · simp at hr
      · simp only [List.mem_singleton] at hr
        exact ⟨_, _, hr⟩
    · exact ih r hr

/-- C9 (amended): every emitted record's product name is exactly the
source's cleanup `trim(replace(/^\s*\d+\s*/, '')(-))` of a raw name, and
consequently never begins with a whitespace character.  (It can still
begin with a digit: see `C9_counterexample`.) -/
theorem C9_product_name_clean (pages : List (List Char)) (r : OrderMapping)
    (h : r ∈ parseOrdersPdf pages) :
    (∃ raw, r.productName = trimChars (stripLeadingNum raw)) ∧
    ∀ c, r.productName.head? = some c → isSpaceChar c = false := by
  obtain ⟨recs, hrecs, hr⟩ := List.mem_flatten.mp h
  obtain ⟨t, _, rfl⟩ := List.mem_map.mp hrecs
  obtain ⟨num, b, rfl⟩ := mem_blocksOf t (shippingScan t 0) r hr
  constructor
  · exact ⟨_, rfl⟩
  · intro c hc
    exact trimChars_head_not_space hc

/-- Witness for `C9_product_name_clean` on the spec's end-to-end row. -/
theorem C9_product_name_clean_witness :
    (∃ raw,
      ({ shippingNumber := ("0149711785-0110-1").data, article := ("F/034").data,
         productName := ("ProductName").data } : OrderMapping).productName =
        trimChars (stripLeadingNum raw)) ∧
    ∀ c,
      ({ shippingNumber := ("0149711785-0110-1").data, article := ("F/034").data,
         productName := ("ProductName").data } : OrderMapping).productName.head? =
        some c → isSpaceChar c = false :=
  C9_product_name_clean
    [("0149711785-0110-1 ProductName F/034 1 1785").data]
    { shippingNumber := ("0149711785-0110-1").data, article := ("F/034").data,
      productName := ("ProductName").data }
    (by decide)

/-! ## C7 -/

theorem drop_cons_of_head? {l : List Char} {r : Nat} {s : Char}
    (h : (l.drop r).head? = some s) : l.drop r = s :: l.drop (r + 1) := by
  cases hd : l.drop r with
  | nil => rw [hd] at h; exact Option.noConfusion h
  | cons x xs =>
    rw [hd] at h
    simp only [List.head?_cons, Option.some.injEq] at h
    subst h
    have hx : l.drop (r + 1) = xs := by
      have : (l.drop r).drop 1 = l.drop (r + 1) := by rw [List.drop_drop]
      rw [← this, hd]
      rfl
    rw [hx]

theorem take_runLen_ne_nil {p : Char → Bool} {l : List Char}
    (h : runLen p l ≠ 0) : l.take (runLen p l) ≠ [] := by
  intro hnil
  have hle := runLen_le_length p l
  have := congrArg List.length hnil
  simp only [List.length_take, List.length_nil] at this
  omega

theorem fallbackAt_sound {l tok : List Char} (h : fallbackAt l = some tok) :
    ArticleShaped tok ∧ ∃ rest, l = tok ++ rest := by
  simp only [fallbackAt] at h
  split at h
  · exact absurd h (by simp)
  · rename_i hr
    split at h
    · rename_i s hh
      split at h
      · rename_i hs
        split at h
        · exact absurd h (by simp)
        · rename_i hr2
          rw [Option.some.injEq] at h
          subst h
          constructor
          · exact ⟨l.take (runLen isAlnum l), s, _, rfl,
              take_runLen_ne_nil hr, take_runLen_ne_nil hr2,
              runLen_take_all isAlnum l, hs,
              runLen_take_all isAlnum (l.drop (runLen isAlnum l + 1))⟩
          · refine ⟨(l.drop (runLen isAlnum l + 1)).drop
              (runLen isAlnum (l.drop (runLen isAlnum l + 1))), ?_⟩
            conv_lhs => rw [← List.take_append_drop (runLen isAlnum l) l]
            rw [drop_cons_of_head? hh]
            conv_lhs => rw [← List.take_append_drop
              (runLen isAlnum (l.drop (runLen isAlnum l + 1)))
              (l.drop (runLen isAlnum l + 1))]
            simp [List.append_assoc]
      · exact absurd h (by simp)
    · exact absurd h (by simp)

theorem fallbackFind_spec :
    ∀ (l : List Char) (j i : Nat) (tok : List Char),
      fallbackFind l j = some (i, tok) →
      ∃ k, i = j + k ∧ fallbackAt (l.drop k) = some tok ∧
        ∀ m, m < k → fallbackAt (l.drop m) = none := by
  intro l
  induction l with
  | nil => intro j i tok h; simp [fallbackFind] at h
  | cons c cs ih =>
    intro j i tok h
    simp only [fallbackFind] at h
    cases ha : fallbackAt (c :: cs) with
    | some t =>
      rw [ha] at h
      simp only [Option.some.injEq, Prod.mk.injEq] at h
      obtain ⟨rfl, rfl⟩ := h
      exact ⟨0, by omega, by simpa using ha, fun m hm => absurd hm (by omega)⟩
    | none =>
      rw [ha] at h
      obtain ⟨k, hk, hat, hmin⟩ := ih (j + 1) i tok h
      refine ⟨k + 1, by omega, by simpa using hat, ?_⟩
      intro m hm
      cases m with
      | zero => simpa using ha
      | succ m2 => simpa using hmin m2 (by omega)

theorem fallbackFind_none :
    ∀ (l : List Char) (j : Nat), fallbackFind l j = none →
      ∀ k, fallbackAt (l.drop k) = none := by
  intro l
  induction l with
  | nil =>
    intro j _ k
    rw [List.drop_nil]
    simp [fallbackAt, runLen]
  | cons c cs ih =>
    intro j h k
    simp only [fallbackFind] at h
    cases ha : fallbackAt (c :: cs) with
    | some t => rw [ha] at h; exact absurd h (by simp)
    | none =>
      rw [ha] at h
      cases k with
      | zero => simpa using ha
      | succ k2 => simpa using ih (j + 1) h k2

theorem sep_not_alnum {s : Char} (hs : s = '-' ∨ s = '/') :
    isAlnum s = false := by
  rcases hs with hs | hs <;> subst hs <;> decide

/-- Completeness of the fallback matcher at the position of an
article-shaped decomposition. -/
theorem fallbackAt_of_shape {a : List Char} {s : Char} {b rest : List Char}
    (ha : a ≠ []) (haall : ∀ c ∈ a, isAlnum c = true)
    (hs : s = '-' ∨ s = '/') (hb : b ≠ [])
    (hball : ∀ c ∈ b, isAlnum c = true) :
    ∃ tok, fallbackAt (a ++ s :: (b ++ rest)) = some tok := by
  have hrun : runLen isAlnum (a ++ s :: (b ++ rest)) = a.length := by
    rw [runLen_append_all _ haall, runLen_cons_false _ (sep_not_alnum hs)]
    omega
  have hdrop : (a ++ s :: (b ++ rest)).drop a.length = s :: (b ++ rest) :=
    List.drop_left a _
  have hdrop1 : (a ++ s :: (b ++ rest)).drop (a.length + 1) = b ++ rest := by
    rw [show a ++ s :: (b ++ rest) = (a ++ [s]) ++ (b ++ rest) by simp]
    rw [show a.length + 1 = (a ++ [s]).length by simp]
    exact List.drop_left _ _
  have hr2 : 0 < runLen isAlnum (b ++ rest) := by
    cases b with
    | nil => exact absurd rfl hb
    | cons b0 bs =>
      simp only [List.cons_append, runLen]
      rw [if_pos (hball b0 (by simp))]
      omega
  simp only [fallbackAt, hrun, hdrop, hdrop1, List.head?_cons]
  rw [if_neg (by
    cases a with
    | nil => exact absurd rfl ha
    | cons _ _ => simp), if_pos hs, if_neg (by omega)]
  exact ⟨_, rfl⟩

theorem TokenAt_fallbackAt {l : List Char} {q : Nat} {t : List Char}
    (h : TokenAt l q t) : ∃ tok, fallbackAt (l.drop q) = some tok := by
  obtain ⟨rest, hdrop, a, s, b, rfl, ha, hb, haall, hs, hball⟩ := h
  rw [hdrop, show (a ++ s :: b) ++ rest = a ++ s :: (b ++ rest) by simp]
  exact fallbackAt_of_shape ha haall hs hb hball

/-- C7 counterexample: on the block `"123 A-1"` the primary grammar fails
and the fallback assigns the article `"A-1"`, but the resulting product
name is empty — not the text `"123"` standing before the token — because
the line-125 cleanup then strips the leading digit run. -/
theorem C7_counterexample :
    primaryMatch (("123 A-1").data) = none ∧
    fallbackFind (("123 A-1").data) 0 = some (4, ("A-1").data) ∧
    parseBlock (("123 A-1").data) = (("A-1").data, []) ∧
    trimChars ((("123 A-1").data).take 4) = ("123").data ∧
    ([] : List Char) ≠ ("123").data := by
  exact ⟨by decide, by decide, by decide, by decide, by decide⟩

/-- C7 (amended): when the primary grammar fails on a block containing an
article-shaped token, the parser assigns the leftmost such token — which is
non-empty — as the article, and assigns as product name the text before
that token after the source's cleanup (trim, strip one leading
whitespace-digits-whitespace run, trim). -/
theorem C7_fallback_first_token (l : List Char)
    (h1 : primaryMatch l = none) (h2 : hasArticleToken l) :
    ∃ i tok, fallbackFind l 0 = some (i, tok) ∧
      tok ≠ [] ∧ TokenAt l i tok ∧
      (∀ q t, TokenAt l q t → i ≤ q) ∧
      parseBlock l = (tok, trimChars (stripLeadingNum (trimChars (l.take i)))) := by
  have hfind : fallbackFind l 0 ≠ none := by
    intro hnone
    obtain ⟨q, t, ht⟩ := h2
    obtain ⟨tok, htok⟩ := TokenAt_fallbackAt ht
    rw [fallbackFind_none l 0 hnone q] at htok
    exact Option.noConfusion htok
  cases hf : fallbackFind l 0 with
  | none => exact absurd hf hfind
  | some p =>
    obtain ⟨i, tok⟩ := p
    obtain ⟨k, hk, hat, hmin⟩ := fallbackFind_spec l 0 i tok hf
    have hki : k = i := by omega
    subst hki
    obtain ⟨hshape, rest, hdecomp⟩ := fallbackAt_sound hat
    refine ⟨k, tok, rfl, ?_, ⟨rest, hdecomp, hshape⟩, ?_, ?_⟩
    · obtain ⟨a, s, b, rfl, ha, -⟩ := hshape
      cases a with
      | nil => exact absurd rfl ha
      | cons _ _ => simp
    · intro q t hq
      by_contra hlt
      push_neg at hlt
      obtain ⟨tok2, htok2⟩ := TokenAt_fallbackAt hq
      rw [hmin q (by omega)] at htok2
      exact Option.noConfusion htok2
    · simp only [parseBlock, h1, hf]

/-- Witness for `C7_fallback_first_token` on the block `"Name A-1"`. -/
theorem C7_fallback_first_token_witness :
    ∃ i tok, fallbackFind (("Name A-1").data) 0 = some (i, tok) ∧
      tok ≠ [] ∧ TokenAt (("Name A-1").data) i tok ∧
      (∀ q t, TokenAt (("Name A-1").data) q t → i ≤ q) ∧
      parseBlock (("Name A-1").data) =
        (tok, trimChars (stripLeadingNum (trimChars ((("Name A-1").data).take i)))) :=
  C7_fallback_first_token (("Name A-1").data) (by decide)
    ⟨5, ("A-1").data,
      ⟨[], by decide,
        ("A").data, '-', ("1").data, by decide, by decide, by decide,
        by decide, Or.inl rfl, by decide⟩⟩

/-! ## C10 -/

theorem runLen_zero_all {p : Char → Bool} {x : List Char}
    (h : ∀ c ∈ x, p c = false) : runLen p x = 0 := by
  cases x with
  | nil => rfl
  | cons c cs => exact runLen_cons_false _ (h c (by simp))

theorem runLen_zero_front {p : Char → Bool} {x : List Char} (y : List Char)
    (hx : x ≠ []) (hall : ∀ c ∈ x, p c = false) : runLen p (x ++ y) = 0 := by
  cases x with
  | nil => exact absurd rfl hx
  | cons x0 xs =>
    rw [List.cons_append]
    exact runLen_cons_false _ (hall x0 (by simp))

theorem eatRun1_append {p : Char → Bool} {a b : List Char}
    (ha : a ≠ []) (hall : ∀ c ∈ a, p c = true) (hb : runLen p b = 0) :
    eatRun1 p (a ++ b) = some (a, b) := by
  have h1 : runLen p (a ++ b) = a.length := by
    rw [runLen_append_all _ hall, hb]
    omega
  simp only [eatRun1, h1]
  rw [if_neg (by cases a with | nil => exact absurd rfl ha | cons _ _ => simp)]
  rw [List.take_left, List.drop_left]

/-- The deterministic tail of the primary grammar succeeds on any suffix of
the structured form `ws tok ws digits ws 4-digits [ws digits]` and captures
exactly the token. -/
theorem tailMatch_structured
    (ws1 tok ws2 qty ws3 lab tail : List Char)
    (hws1 : ws1 ≠ []) (hws1S : ∀ c ∈ ws1, isSpaceChar c = true)
    (htok : tok ≠ []) (htokNS : ∀ c ∈ tok, isSpaceChar c = false)
    (hws2 : ws2 ≠ []) (hws2S : ∀ c ∈ ws2, isSpaceChar c = true)
    (hqty : qty ≠ []) (hqtyD : ∀ c ∈ qty, isDigitChar c = true)
    (hws3 : ws3 ≠ []) (hws3S : ∀ c ∈ ws3, isSpaceChar c = true)
    (hlab4 : lab.length = 4) (hlabD : ∀ c ∈ lab, isDigitChar c = true)
    (htail : tail = [] ∨ ∃ ws4 ext, tail = ws4 ++ ext ∧
      (∀ c ∈ ws4, isSpaceChar c = true) ∧ ext ≠ [] ∧
      (∀ c ∈ ext, isDigitChar c = true)) :
    tailMatch (ws1 ++ (tok ++ (ws2 ++ (qty ++ (ws3 ++ (lab ++ tail)))))) = some tok := by
  have hlabne : lab ≠ [] := by
    intro hnil
    rw [hnil] at hlab4
    simp at hlab4
  have e1 := eatRun1_append hws1 hws1S
    (runLen_zero_front (ws2 ++ (qty ++ (ws3 ++ (lab ++ tail)))) htok htokNS)
  have e2 := eatRun1_append (p := fun c => !isSpaceChar c) htok
    (fun c hc => by simp [htokNS c hc])
    (runLen_zero_front (qty ++ (ws3 ++ (lab ++ tail))) hws2
      (fun c hc => by simp [hws2S c hc]))
  have e3 := eatRun1_append hws2 hws2S
    (runLen_zero_front (ws3 ++ (lab ++ tail)) hqty
      (fun c hc => isDigitChar_not_space (hqtyD c hc)))
  have e4 := eatRun1_append hqty hqtyD
    (runLen_zero_front (lab ++ tail) hws3
      (fun c hc => isSpaceChar_not_digit (hws3S c hc)))
  have e5 := eatRun1_append hws3 hws3S
    (runLen_zero_front tail hlabne
      (fun c hc => isDigitChar_not_space (hlabD c hc)))
  have htake4 : (lab ++ tail).take 4 = lab := by
    conv_lhs => rw [← hlab4]
    exact List.take_left _ _
  have hdrop4 : (lab ++ tail).drop 4 = tail := by
    conv_lhs => rw [← hlab4]
    exact List.drop_left _ _
  simp only [tailMatch, e1, e2, e3, e4, e5]
  rw [if_pos ⟨by rw [htake4, hlab4], by
    rw [htake4]
    exact List.all_eq_true.mpr (fun c hc => hlabD c hc)⟩]
  rw [hdrop4]
  rcases htail with rfl | ⟨ws4, ext, rfl, hws4S, hext, hextD⟩
  · simp [runLen]
  · have hs4 : runLen isSpaceChar (ws4 ++ ext) = ws4.length := by
      rw [runLen_append_all _ hws4S,
        runLen_zero_all (fun c hc => isDigitChar_not_space (hextD c hc))]
      omega
    have hd2 : runLen isDigitChar ext = ext.length := runLen_all hextD
    have hextpos : 0 < ext.length := by
      cases ext with
      | nil => exact absurd rfl hext
      | cons _ _ => simp
    rw [hs4, List.drop_left, hd2, if_pos hextpos, List.drop_length]
    simp [runLen]

theorem tailMatch_head_not_space {c : Char} (cs : List Char)
    (h : isSpaceChar c = false) : tailMatch (c :: cs) = none := by
  have h0 : eatRun1 isSpaceChar (c :: cs) = none := by
    simp [eatRun1, runLen_cons_false _ h]
  simp only [tailMatch, h0]

theorem tailMatch_nil : tailMatch [] = none := by
  have h0 : eatRun1 isSpaceChar [] = none := by
    simp [eatRun1, runLen]
  simp only [tailMatch, h0]

theorem primGo_cons_none (j : Nat) {c : Char} {cs : List Char}
    (h : tailMatch (c :: cs) = none) : primGo j (c :: cs) = primGo (j + 1) cs := by
  rw [show primGo j (c :: cs) =
    (match tailMatch (c :: cs) with
     | some tok => some (j, tok)
     | none => primGo (j + 1) cs) from rfl, h]

theorem primGo_cons_some (j : Nat) {c : Char} {cs : List Char} {tok : List Char}
    (h : tailMatch (c :: cs) = some tok) : primGo j (c :: cs) = some (j, tok) := by
  rw [show primGo j (c :: cs) =
    (match tailMatch (c :: cs) with
     | some tok => some (j, tok)
     | none => primGo (j + 1) cs) from rfl, h]

theorem primaryMatch_unfold (l : List Char) :
    primaryMatch l =
      (match primGo 0 l with
       | some (j, tok) => some (lastSegment (l.take j), tok)
       | none => none) := rfl

theorem primGo_skip :
    ∀ (pre : List Char) (j : Nat) (rest : List Char),
      (∀ c ∈ pre, isSpaceChar c = false) →
      primGo j (pre ++ rest) = primGo (j + pre.length) rest := by
  intro pre
  induction pre with
  | nil => intro j rest _; simp
  | cons c p ih =>
    intro j rest h
    rw [List.cons_append]
    rw [primGo_cons_none j (tailMatch_head_not_space (p ++ rest) (h c (by simp)))]
    rw [ih (j + 1) rest (fun x hx => h x (by simp [hx]))]
    congr 1
    simp only [List.length_cons]
    omega

theorem primGo_some_of_tail :
    ∀ (l : List Char) (j k : Nat) (t : List Char),
      tailMatch (l.drop k) = some t →
      ∃ p, primGo j l = some p := by
  intro l
  induction l with
  | nil =>
    intro j k t ht
    rw [List.drop_nil, tailMatch_nil] at ht
    exact Option.noConfusion ht
  | cons c cs ih =>
    intro j k t ht
    cases htm : tailMatch (c :: cs) with
    | some tok => exact ⟨(j, tok), primGo_cons_some j htm⟩
    | none =>
      rw [primGo_cons_none j htm]
      cases k with
      | zero =>
        rw [List.drop_zero, htm] at ht
        exact Option.noConfusion ht
      | succ k2 =>
        rw [List.drop_succ_cons] at ht
        exact ih (j + 1) k2 t ht

theorem takeWhile_all {p : Char → Bool} :
    ∀ l : List Char, (∀ c ∈ l, p c = true) → l.takeWhile p = l := by
  intro l
  induction l with
  | nil => intro _; rfl
  | cons c cs ih =>
    intro h
    rw [List.takeWhile_cons, if_pos (h c (by simp))]
    rw [ih (fun x hx => h x (by simp [hx]))]

theorem lastSegment_no_term {l : List Char}
    (h : ∀ c ∈ l, isLineTerm c = false) : lastSegment l = l := by
  unfold lastSegment
  rw [takeWhile_all l.reverse (fun c hc => by
    simp only [List.mem_reverse] at hc
    simp [h c hc])]
  exact List.reverse_reverse l

/-- C10 counterexample: the block `"B 1 1785"` ends in
`<non-whitespace token> <integer> <four digits>` (token `"B"`), yet the
primary grammar does *not* match it — the grammar's leading `(.*?)\s+`
demands at least one whitespace character before the token — so the block
falls through to the fallback grammar, which finds no separator token and
leaves the article empty rather than `"B"`. -/
theorem C10_counterexample :
    ("B 1 1785").data =
      ("B").data ++ (" ").data ++ ("1").data ++ (" ").data ++ ("1785").data ∧
    primaryMatch (("B 1 1785").data) = none ∧
    (parseBlock (("B 1 1785").data)).1 = [] := by
  exact ⟨by decide, by decide, by decide⟩

/-- C10 (amended): a block ending in `<whitespace> <token> <integer>
<four digits>` (optionally followed by one more integer), with at least one
whitespace character before the token, always matches the primary grammar
(so it never reaches the fallback), whatever the token's shape — purely
numeric or a plain word; and when the text before that whitespace is a
single whitespace-free word, the assigned article is exactly that token and
the captured product name exactly that word. -/
theorem C10_primary_article
    (pre ws1 tok ws2 qty ws3 lab tail : List Char)
    (hpre : pre ≠ []) (hpreNS : ∀ c ∈ pre, isSpaceChar c = false)
    (hws1 : ws1 ≠ []) (hws1S : ∀ c ∈ ws1, isSpaceChar c = true)
    (htok : tok ≠ []) (htokNS : ∀ c ∈ tok, isSpaceChar c = false)
    (hws2 : ws2 ≠ []) (hws2S : ∀ c ∈ ws2, isSpaceChar c = true)
    (hqty : qty ≠ []) (hqtyD : ∀ c ∈ qty, isDigitChar c = true)
    (hws3 : ws3 ≠ []) (hws3S : ∀ c ∈ ws3, isSpaceChar c = true)
    (hlab4 : lab.length = 4) (hlabD : ∀ c ∈ lab, isDigitChar c = true)
    (htail : tail = [] ∨ ∃ ws4 ext, tail = ws4 ++ ext ∧
      (∀ c ∈ ws4, isSpaceChar c = true) ∧ ext ≠ [] ∧
      (∀ c ∈ ext, isDigitChar c = true)) :
    (∀ pre2 : List Char,
      primaryMatch
        (pre2 ++ (ws1 ++ (tok ++ (ws2 ++ (qty ++ (ws3 ++ (lab ++ tail))))))) ≠ none) ∧
    primaryMatch (pre ++ (ws1 ++ (tok ++ (ws2 ++ (qty ++ (ws3 ++ (lab ++ tail))))))) =
      some (pre, tok) ∧
    (parseBlock (pre ++ (ws1 ++ (tok ++ (ws2 ++ (qty ++ (ws3 ++ (lab ++ tail)))))))).1 =
      tok := by
  have htm := tailMatch_structured ws1 tok ws2 qty ws3 lab tail
    hws1 hws1S htok htokNS hws2 hws2S hqty hqtyD hws3 hws3S hlab4 hlabD htail
  have hmain : primaryMatch
      (pre ++ (ws1 ++ (tok ++ (ws2 ++ (qty ++ (ws3 ++ (lab ++ tail))))))) =
      some (pre, tok) := by
    have h1 : primGo 0 (pre ++ (ws1 ++ (tok ++ (ws2 ++ (qty ++ (ws3 ++ (lab ++ tail))))))) =
        primGo pre.length (ws1 ++ (tok ++ (ws2 ++ (qty ++ (ws3 ++ (lab ++ tail)))))) := by
      rw [primGo_skip pre 0 _ hpreNS]
      congr 1
      omega
    have h2 : primGo pre.length (ws1 ++ (tok ++ (ws2 ++ (qty ++ (ws3 ++ (lab ++ tail)))))) =
        some (pre.length, tok) := by
      cases hws : ws1 with
      | nil => exact absurd hws hws1
      | cons w ws0 =>
        rw [hws] at htm
        rw [List.cons_append] at htm ⊢
        exact primGo_cons_some pre.length htm
    rw [primaryMatch_unfold, h1, h2]
    dsimp only
    rw [List.take_left]
    rw [lastSegment_no_term (fun c hc => not_space_not_term (hpreNS c hc))]
  refine ⟨?_, hmain, ?_⟩
  · intro pre2
    have hdrop : (pre2 ++ (ws1 ++ (tok ++ (ws2 ++ (qty ++ (ws3 ++ (lab ++ tail))))))).drop
        pre2.length = ws1 ++ (tok ++ (ws2 ++ (qty ++ (ws3 ++ (lab ++ tail))))) :=
      List.drop_left _ _
    obtain ⟨p, hp⟩ := primGo_some_of_tail
      (pre2 ++ (ws1 ++ (tok ++ (ws2 ++ (qty ++ (ws3 ++ (lab ++ tail)))))))
      0 pre2.length tok (by rw [hdrop]; exact htm)
    obtain ⟨j0, t0⟩ := p
    rw [primaryMatch_unfold, hp]
    simp
  · simp only [parseBlock, hmain]
    exact trimChars_of_no_space htokNS

/-- Witness for `C10_primary_article`: the Cyrillic word "синяя" — the final
word of a product name, no article-like shape at all — is captured as the
article when only the two trailing numeric fields follow it. -/
theorem C10_primary_article_witness :
    (∀ pre2 : List Char,
      primaryMatch (pre2 ++ ((" ").data ++ (("синяя").data ++ ((" ").data ++
        (("1").data ++ ((" ").data ++ (("1785").data ++ ([] : List Char)))))))) ≠ none) ∧
    primaryMatch (("Деталь").data ++ ((" ").data ++ (("синяя").data ++ ((" ").data ++
        (("1").data ++ ((" ").data ++ (("1785").data ++ ([] : List Char)))))))) =
      some (("Деталь").data, ("синяя").data) ∧
    (parseBlock (("Деталь").data ++ ((" ").data ++ (("синяя").data ++ ((" ").data ++
        (("1").data ++ ((" ").data ++ (("1785").data ++ ([] : List Char))))))))).1 =
      ("синяя").data :=
  C10_primary_article (("Деталь").data) ((" ").data) (("синяя").data) ((" ").data)
    (("1").data) ((" ").data) (("1785").data) []
    (by decide) (by decide) (by decide) (by decide) (by decide) (by decide)
    (by decide) (by decide) (by decide) (by decide) (by decide) (by decide)
    (by decide) (by decide) (Or.inl rfl)
